import Mathlib

/-!
# Verification of the uX narrow-integer library (src/lib.rs)

A shallow embedding of the `define_unsigned!` / `define_signed!` /
`implement_common!` macro bodies of `src/lib.rs`.  Every instantiated type
`uB` / `iB` is a wrapper around a native integer of backing width `N`
(8, 16, 32 or 64 bits).  We model a stored native value as its N-bit
two's-complement bit pattern, a natural number `p < 2 ^ N`; the signed
native value of a pattern is recovered by `toInt`.  All operations below
are translated directly from the Rust source, parameterised by the bit
width `bits` and the backing width `N`.
-/

namespace UX

/-- Two's-complement interpretation of an `N`-bit pattern: the native signed
value of the backing integer whose bit pattern is `p`. -/
def toInt (N : Nat) (p : Nat) : Int :=
  if p < 2 ^ (N - 1) then (p : Int) else (p : Int) - 2 ^ N

/-- The `N`-bit pattern of the native signed value `x` (two's complement,
i.e. `x` reduced modulo `2 ^ N` into `[0, 2^N)`). -/
def ofInt (N : Nat) (x : Int) : Nat := (x % (2 ^ N : Int)).toNat

/-- Native `wrapping_add` on `N`-bit patterns (identical bit-level behaviour
for the signed and the unsigned backing type). -/
def wadd (N : Nat) (p q : Nat) : Nat := (p + q) % 2 ^ N

/-- Native `wrapping_sub` on `N`-bit patterns (identical bit-level behaviour
for the signed and the unsigned backing type). -/
def wsub (N : Nat) (p q : Nat) : Nat := (p + (2 ^ N - q % 2 ^ N)) % 2 ^ N

/-- Native left shift on an `N`-bit pattern: bits shifted beyond the backing
width are discarded.  (Rust's `shl` only panics on a shift amount `≥ N`,
which is modelled separately by `checkedShl`.) -/
def wshl (N : Nat) (p k : Nat) : Nat := (p <<< k) % 2 ^ N

/-- Native shift with Rust's debug-mode shift-amount check: a shift amount at
or above the backing width is a panic, modelled as `none`. -/
def checkedShl (N : Nat) (p k : Nat) : Option Nat :=
  if k < N then some (wshl N p k) else none

/-- Native `overflowing_sub` on `N`-bit patterns: the wrapped difference
together with the borrow flag.  Never panics. -/
def overflowing_sub (N : Nat) (p q : Nat) : Nat × Bool :=
  ((p + (2 ^ N - q % 2 ^ N)) % 2 ^ N, decide (p < q % 2 ^ N))

/-- Native three-way comparison (`Ord::cmp`) on unsigned backing values. -/
def ncmp (a b : Nat) : Ordering :=
  if a < b then .lt else if a = b then .eq else .gt

/-- Native three-way comparison (`Ord::cmp`) on signed backing values. -/
def icmp (a b : Int) : Ordering :=
  if a < b then .lt else if a = b then .eq else .gt

/-- Base-`b` digits of `n`, least significant first, with explicit fuel; the
digit sequence a native integer renderer emits for `n` (reversed). -/
def digitsAux (b : Nat) : Nat → Nat → List Nat
  | 0, n => [n]
  | fuel + 1, n => if n < b then [n] else n % b :: digitsAux b fuel (n / b)

/-- Base-`b` digit sequence (least significant first) of `n`: the model of
what the native renderer for base `b` prints for the value `n`. -/
def digitsLE (b n : Nat) : List Nat := digitsAux b n n

/-- The `(bits, backing width)` pairs instantiated at the bottom of
`src/lib.rs` by `define_unsigned!` and `define_signed!` (the same list is
used for both families: `u2`–`u63` and `i2`–`i63`, skipping the native
widths 8, 16, 32). -/
def supportedWidths : List (Nat × Nat) :=
  [(2, 8), (3, 8), (4, 8), (5, 8), (6, 8), (7, 8),
   (9, 16), (10, 16), (11, 16), (12, 16), (13, 16), (14, 16), (15, 16),
   (17, 32), (18, 32), (19, 32), (20, 32), (21, 32), (22, 32), (23, 32),
   (24, 32), (25, 32), (26, 32), (27, 32), (28, 32), (29, 32), (30, 32),
   (31, 32),
   (33, 64), (34, 64), (35, 64), (36, 64), (37, 64), (38, 64), (39, 64),
   (40, 64), (41, 64), (42, 64), (43, 64), (44, 64), (45, 64), (46, 64),
   (47, 64), (48, 64), (49, 64), (50, 64), (51, 64), (52, 64), (53, 64),
   (54, 64), (55, 64), (56, 64), (57, 64), (58, 64), (59, 64), (60, 64),
   (61, 64), (62, 64), (63, 64)]

namespace Unsigned

/-- Rust `pub const MAX: Self = $name(((1 as $type) << $bits) - 1);`
(`define_unsigned!`, the stored native value). -/
def MAX (bits N : Nat) : Nat := (1 <<< bits) % 2 ^ N - 1

/-- Rust `pub const MIN: Self = $name(0);` (`define_unsigned!`). -/
def MIN (_bits _N : Nat) : Nat := 0

/-- Rust `fn mask(self) -> Self { $name(self.0 & (((1 as $type) << $bits)
.overflowing_sub(1).0)) }` (`define_unsigned!`).  The shift produces the
pattern `2^bits mod 2^N` and `overflowing_sub` wraps the decrement. -/
def mask (bits N : Nat) (p : Nat) : Nat :=
  p &&& (((1 <<< bits) % 2 ^ N + (2 ^ N - 1)) % 2 ^ N)

/-- Debug-mode `mask`: identical, except that the native shift `1 << bits`
carries its shift-amount panic check (`checkedShl`); `overflowing_sub`
never panics. -/
def maskChecked (bits N : Nat) (p : Nat) : Option Nat :=
  (checkedShl N 1 bits).map fun s => p &&& (overflowing_sub N s 1).1

/-- Rust `fn min_value() -> $name { $name::MIN }` (`implement_common!`). -/
def min_value (bits N : Nat) : Nat := MIN bits N

/-- Rust `fn max_value() -> $name { $name::MAX }` (`implement_common!`). -/
def max_value (bits N : Nat) : Nat := MAX bits N

/-- Rust `fn new(value: $type) -> $name { assert!(value <= $name::MAX.0 && value
>= $name::MIN.0); $name(value) }` — the failed assertion (a panic) is
modelled as `none`. -/
def new (bits N : Nat) (value : Nat) : Option Nat :=
  if value ≤ MAX bits N ∧ MIN bits N ≤ value then some value else none

/-- Rust `fn wrapping_sub(self, rhs: Self) -> Self
{ $name(self.0.wrapping_sub(rhs.0)).mask() }` (`implement_common!`). -/
def wrapping_sub (bits N : Nat) (p q : Nat) : Nat := mask bits N (wsub N p q)

/-- Rust `fn wrapping_add(self, rhs: Self) -> Self
{ $name(self.0.wrapping_add(rhs.0)).mask() }` (`implement_common!`). -/
def wrapping_add (bits N : Nat) (p q : Nat) : Nat := mask bits N (wadd N p q)

/-- Debug-mode `wrapping_sub`: the native op is the (total) wrapping
primitive, the final `mask` carries the debug checks. -/
def wrapping_subChecked (bits N : Nat) (p q : Nat) : Option Nat :=
  maskChecked bits N (wsub N p q)

/-- Debug-mode `wrapping_add`: the native op is the (total) wrapping
primitive, the final `mask` carries the debug checks. -/
def wrapping_addChecked (bits N : Nat) (p q : Nat) : Option Nat :=
  maskChecked bits N (wadd N p q)

/-- Rust `PartialEq::eq`: `self.mask().0 == other.mask().0`, native equality of
the two masked unsigned backing values. -/
def eq (bits N : Nat) (p q : Nat) : Bool :=
  decide (mask bits N p = mask bits N q)

/-- Rust `Ord::cmp`: `self.mask().0.cmp(&other.mask().0)`, native comparison of
the masked unsigned backing values. -/
def cmp (bits N : Nat) (p q : Nat) : Ordering :=
  ncmp (mask bits N p) (mask bits N q)

/-- Rust `Hash::hash`: `self.mask().0.hash(h)` — the native value fed to the
hasher, i.e. the masked backing value. -/
def hash (bits N : Nat) (p : Nat) : Nat := mask bits N p

/-- Rust `Shr`: `$name(self.mask().0.shr(rhs))` — mask, then native logical right
shift of the unsigned backing value. -/
def shr (bits N : Nat) (p k : Nat) : Nat := mask bits N p >>> k

/-- Rust `Shl`: `$name(self.mask().0.shl(rhs))` — mask, then native left shift;
the result is NOT masked again. -/
def shl (bits N : Nat) (p k : Nat) : Nat := wshl N (mask bits N p) k

/-- Rust `impl BitOr<$name> for $name`:
`$name(self.mask().0.bitor(rhs.mask().0))` (value | value). -/
def bitor (bits N : Nat) (p q : Nat) : Nat := mask bits N p ||| mask bits N q

/-- Rust `impl BitOr<&$name> for $name` (value | reference): same body. -/
def bitor_vr (bits N : Nat) (p q : Nat) : Nat :=
  mask bits N p ||| mask bits N q

/-- Rust `impl BitOr<$name> for &$name` (reference | value): same body. -/
def bitor_rv (bits N : Nat) (p q : Nat) : Nat :=
  mask bits N p ||| mask bits N q

/-- Rust `impl BitOr<&$name> for &$name` (reference | reference): same body. -/
def bitor_rr (bits N : Nat) (p q : Nat) : Nat :=
  mask bits N p ||| mask bits N q

/-- Rust `impl Display`: `<$type as Display>::fmt(value, f)` applied to the
STORED backing value — its decimal digit sequence. -/
def fmtDisplay (p : Nat) : List Nat := digitsLE 10 p

/-- Rust `impl UpperHex`: native hex rendering of the STORED backing value. -/
def fmtUpperHex (p : Nat) : List Nat := digitsLE 16 p

/-- Rust `impl LowerHex`: native hex rendering of the STORED backing value. -/
def fmtLowerHex (p : Nat) : List Nat := digitsLE 16 p

/-- Rust `impl Octal`: native octal rendering of the STORED backing value. -/
def fmtOctal (p : Nat) : List Nat := digitsLE 8 p

/-- Rust `impl Binary`: native binary rendering of the STORED backing value. -/
def fmtBinary (p : Nat) : List Nat := digitsLE 2 p

/-- A stored pattern is canonical when `mask` does not change it. -/
def canonical (bits N : Nat) (p : Nat) : Prop := mask bits N p = p

instance (bits N p : Nat) : Decidable (canonical bits N p) := by
  unfold canonical; infer_instance

end Unsigned

namespace Signed

/-- Rust `pub const MAX: Self = $name(((1 as $type) << ($bits - 1)) - 1);`
(`define_signed!`): the native signed value of the shifted pattern,
decremented (no overflow for the instantiated widths, `bits - 1 < N - 1`). -/
def MAX (bits N : Nat) : Int := toInt N ((1 <<< (bits - 1)) % 2 ^ N) - 1

/-- Rust `pub const MIN: Self = $name(-((1 as $type) << ($bits - 1)));`
(`define_signed!`). -/
def MIN (bits N : Nat) : Int := -toInt N ((1 <<< (bits - 1)) % 2 ^ N)

/-- Rust `fn mask(self) -> Self` (`define_signed!`), on bit patterns:
`if (self.0 & (1 << ($bits - 1))) == 0` — the sign test on bit `bits - 1`;
the zero branch clears the padding exactly like the unsigned mask; the
other branch ORs in the complement of the low-bits mask (`!m` on an
`N`-bit value is `m ^^^ (2^N - 1)`), sign-extending into the padding. -/
def mask (bits N : Nat) (p : Nat) : Nat :=
  if p &&& ((1 <<< (bits - 1)) % 2 ^ N) = 0 then
    p &&& (((1 <<< bits) % 2 ^ N + (2 ^ N - 1)) % 2 ^ N)
  else
    p ||| ((((1 <<< bits) % 2 ^ N + (2 ^ N - 1)) % 2 ^ N) ^^^ (2 ^ N - 1))

/-- Debug-mode `mask`: identical, except that the two native shifts
`1 << ($bits - 1)` and `1 << $bits` carry their shift-amount panic checks;
`overflowing_sub` never panics. -/
def maskChecked (bits N : Nat) (p : Nat) : Option Nat :=
  (checkedShl N 1 (bits - 1)).bind fun sb =>
    (checkedShl N 1 bits).map fun s =>
      if p &&& sb = 0 then p &&& (overflowing_sub N s 1).1
      else p ||| ((overflowing_sub N s 1).1 ^^^ (2 ^ N - 1))

/-- Rust `fn min_value() -> $name { $name::MIN }` (`implement_common!`). -/
def min_value (bits N : Nat) : Int := MIN bits N

/-- Rust `fn max_value() -> $name { $name::MAX }` (`implement_common!`). -/
def max_value (bits N : Nat) : Int := MAX bits N

/-- Rust `fn new(value: $type)` with the same range assertion, on the native
signed value; the failed assertion (a panic) is modelled as `none`. -/
def new (bits N : Nat) (value : Int) : Option Int :=
  if value ≤ MAX bits N ∧ MIN bits N ≤ value then some value else none

/-- Rust `wrapping_sub` (`implement_common!`): the native signed `wrapping_sub`
has exactly the two's-complement pattern semantics `wsub`. -/
def wrapping_sub (bits N : Nat) (p q : Nat) : Nat := mask bits N (wsub N p q)

/-- Rust `wrapping_add` (`implement_common!`): the native signed `wrapping_add`
has exactly the two's-complement pattern semantics `wadd`. -/
def wrapping_add (bits N : Nat) (p q : Nat) : Nat := mask bits N (wadd N p q)

/-- Debug-mode `wrapping_sub` (the final `mask` carries the debug checks). -/
def wrapping_subChecked (bits N : Nat) (p q : Nat) : Option Nat :=
  maskChecked bits N (wsub N p q)

/-- Debug-mode `wrapping_add` (the final `mask` carries the debug checks). -/
def wrapping_addChecked (bits N : Nat) (p q : Nat) : Option Nat :=
  maskChecked bits N (wadd N p q)

/-- Rust `PartialEq::eq`: native equality of the two masked signed backing
values. -/
def eq (bits N : Nat) (p q : Nat) : Bool :=
  decide (toInt N (mask bits N p) = toInt N (mask bits N q))

/-- Rust `Ord::cmp`: native signed comparison of the masked backing values. -/
def cmp (bits N : Nat) (p q : Nat) : Ordering :=
  icmp (toInt N (mask bits N p)) (toInt N (mask bits N q))

/-- Rust `Hash::hash`: the native value fed to the hasher is the masked backing
value (an `iN` hashes as its bit pattern). -/
def hash (bits N : Nat) (p : Nat) : Nat := mask bits N p

/-- Rust `Shr`: mask, then native ARITHMETIC right shift of the signed backing
value, i.e. flooring division of the signed value by `2^k` (Lean's `Int`
division `/` is Euclidean division, which coincides with flooring division
for a positive divisor), converted back to its bit pattern. -/
def shr (bits N : Nat) (p k : Nat) : Nat :=
  ofInt N (toInt N (mask bits N p) / 2 ^ k)

/-- Rust `Shl`: mask, then native left shift of the backing value (pattern
shift); the result is NOT masked again. -/
def shl (bits N : Nat) (p k : Nat) : Nat := wshl N (mask bits N p) k

/-- Rust `impl BitOr<$name> for $name` (value | value): OR of the masked
patterns (the native signed `|` is the pattern OR). -/
def bitor (bits N : Nat) (p q : Nat) : Nat := mask bits N p ||| mask bits N q

/-- Rust `impl BitOr<&$name> for $name` (value | reference): same body. -/
def bitor_vr (bits N : Nat) (p q : Nat) : Nat :=
  mask bits N p ||| mask bits N q

/-- Rust `impl BitOr<$name> for &$name` (reference | value): same body. -/
def bitor_rv (bits N : Nat) (p q : Nat) : Nat :=
  mask bits N p ||| mask bits N q

/-- Rust `impl BitOr<&$name> for &$name` (reference | reference): same body. -/
def bitor_rr (bits N : Nat) (p q : Nat) : Nat :=
  mask bits N p ||| mask bits N q

/-- Rust `impl Display` applied to the STORED backing value: a signed native
`Display` renders a sign flag and the decimal digits of the absolute
value. -/
def fmtDisplay (N : Nat) (p : Nat) : Bool × List Nat :=
  (decide (toInt N p < 0), digitsLE 10 (toInt N p).natAbs)

/-- Rust `impl UpperHex` applied to the STORED backing value: a signed native
integer hex-renders its two's-complement bit pattern. -/
def fmtUpperHex (p : Nat) : List Nat := digitsLE 16 p

/-- Rust `impl LowerHex` applied to the STORED backing value (bit pattern). -/
def fmtLowerHex (p : Nat) : List Nat := digitsLE 16 p

/-- Rust `impl Octal` applied to the STORED backing value (bit pattern). -/
def fmtOctal (p : Nat) : List Nat := digitsLE 8 p

/-- Rust `impl Binary` applied to the STORED backing value (bit pattern). -/
def fmtBinary (p : Nat) : List Nat := digitsLE 2 p

/-- A stored pattern is canonical when `mask` does not change it. -/
def canonical (bits N : Nat) (p : Nat) : Prop := mask bits N p = p

instance (bits N p : Nat) : Decidable (canonical bits N p) := by
  unfold canonical; infer_instance

end Signed

end UX

namespace UX

/-! ## Toolkit: arithmetic characterizations of the source definitions -/

lemma shl_one_mod {bits N : Nat} (h : bits < N) :
    (1 <<< bits) % 2 ^ N = 2 ^ bits := by
  rw [Nat.shiftLeft_eq, Nat.one_mul]
  exact Nat.mod_eq_of_lt (Nat.pow_lt_pow_right (by norm_num) h)

lemma umask_const {bits N : Nat} (h : bits < N) :
    ((1 <<< bits) % 2 ^ N + (2 ^ N - 1)) % 2 ^ N = 2 ^ bits - 1 := by
  rw [shl_one_mod h]
  have h1 : 1 ≤ 2 ^ bits := Nat.one_le_two_pow
  have h2 : 2 ^ bits < 2 ^ N := Nat.pow_lt_pow_right (by norm_num) h
  have h3 : 2 ^ bits + (2 ^ N - 1) = 2 ^ N + (2 ^ bits - 1) := by omega
  rw [h3, Nat.add_mod_left]
  exact Nat.mod_eq_of_lt (by omega)

lemma Unsigned.mask_eq {bits N : Nat} (h : bits < N) (p : Nat) :
    Unsigned.mask bits N p = p % 2 ^ bits := by
  rw [Unsigned.mask, umask_const h]
  exact Nat.and_pow_two_sub_one_eq_mod p bits

lemma hi_eq_mul {bits N : Nat} (h : bits ≤ N) :
    2 ^ N - 2 ^ bits = 2 ^ bits * (2 ^ (N - bits) - 1) := by
  have hm : 2 ^ bits * 2 ^ (N - bits) = 2 ^ N := by
    rw [← Nat.pow_add]
    congr 1
    omega
  have h1 : 1 ≤ 2 ^ (N - bits) := Nat.one_le_two_pow
  have h2 : 2 ^ bits * (2 ^ (N - bits) - 1) + 2 ^ bits = 2 ^ bits * 2 ^ (N - bits) := by
    rw [← Nat.mul_succ]
    congr 1
    omega
  omega

lemma testBit_hi {bits N : Nat} (h : bits ≤ N) (i : Nat) :
    (2 ^ N - 2 ^ bits).testBit i = decide (bits ≤ i ∧ i < N) := by
  rw [hi_eq_mul h, Nat.testBit_mul_pow_two, Nat.testBit_two_pow_sub_one]
  by_cases hic : bits ≤ i ∧ i < N
  · have h1 : decide (bits ≤ i ∧ i < N) = true := by
      rw [decide_eq_true_eq]
      exact hic
    have h2 : decide (i ≥ bits) = true := by
      rw [decide_eq_true_eq]
      omega
    have h3 : decide (i - bits < N - bits) = true := by
      rw [decide_eq_true_eq]
      omega
    rw [h1, h2, h3]
    rfl
  · have h1 : decide (bits ≤ i ∧ i < N) = false := by
      rw [decide_eq_false_iff_not]
      exact hic
    rw [h1]
    by_cases hib : bits ≤ i
    · have h3 : decide (i - bits < N - bits) = false := by
        rw [decide_eq_false_iff_not]
        omega
      rw [h3, Bool.and_false]
    · have h2 : decide (i ≥ bits) = false := by
        rw [decide_eq_false_iff_not]
        omega
      rw [h2, Bool.false_and]

lemma xor_ones {bits N : Nat} (h : bits ≤ N) :
    (2 ^ bits - 1) ^^^ (2 ^ N - 1) = 2 ^ N - 2 ^ bits := by
  apply Nat.eq_of_testBit_eq
  intro i
  rw [Nat.testBit_xor, Nat.testBit_two_pow_sub_one, Nat.testBit_two_pow_sub_one,
    testBit_hi h]
  by_cases hib : i < bits <;> by_cases hiN : i < N <;>
    simp [hib, hiN] <;> omega

lemma lor_hi {bits N : Nat} (h : bits ≤ N) {p : Nat} (hp : p < 2 ^ N) :
    p ||| (2 ^ N - 2 ^ bits) = (2 ^ N - 2 ^ bits) + p % 2 ^ bits := by
  rw [hi_eq_mul h,
    Nat.mul_add_lt_is_or (Nat.mod_lt _ (Nat.two_pow_pos bits)) (2 ^ (N - bits) - 1),
    ← hi_eq_mul h]
  apply Nat.eq_of_testBit_eq
  intro i
  rw [Nat.testBit_or, Nat.testBit_or, testBit_hi h, Nat.testBit_mod_two_pow]
  by_cases hib : i < bits
  · have h1 : decide (bits ≤ i ∧ i < N) = false := by
      rw [decide_eq_false_iff_not]
      omega
    have h2 : decide (i < bits) = true := by
      rw [decide_eq_true_eq]
      exact hib
    rw [h1, h2]
    simp
  · by_cases hiN : i < N
    · have h1 : decide (bits ≤ i ∧ i < N) = true := by
        rw [decide_eq_true_eq]
        omega
      rw [h1]
      simp
    · have h1 : decide (bits ≤ i ∧ i < N) = false := by
        rw [decide_eq_false_iff_not]
        omega
      have hpi : p.testBit i = false :=
        Nat.testBit_lt_two_pow
          (lt_of_lt_of_le hp (Nat.pow_le_pow_right (by norm_num) (by omega)))
      have h2 : decide (i < bits) = false := by
        rw [decide_eq_false_iff_not]
        omega
      rw [h1, h2, hpi]
      simp

lemma div_high_bit {b q : Nat} (hb : 0 < b) (hqlt : q < b * 2) :
    decide (q / b % 2 = 1) = decide (b ≤ q) := by
  have hdm := Nat.div_add_mod q b
  have hmlt : q % b < b := Nat.mod_lt _ hb
  rw [decide_eq_decide]
  generalize hd : q / b = d
  rw [hd] at hdm
  generalize he : q % b = e at hdm hmlt
  have hd2 : d < 2 := by
    by_contra hcon
    push_neg at hcon
    have hmul : b * 2 ≤ b * d := Nat.mul_le_mul (Nat.le_refl b) hcon
    omega
  rcases (show d = 0 ∨ d = 1 by omega) with rfl | rfl <;> omega

lemma testBit_high_mod {bits : Nat} (h : 0 < bits) (p : Nat) :
    p.testBit (bits - 1) = decide (2 ^ (bits - 1) ≤ p % 2 ^ bits) := by
  have h1 : p.testBit (bits - 1) = (p % 2 ^ bits).testBit (bits - 1) := by
    rw [Nat.testBit_mod_two_pow]
    simp [show bits - 1 < bits by omega]
  have hsplit : 2 ^ bits = 2 ^ (bits - 1) * 2 := by
    rw [← Nat.pow_succ]
    congr 1
    omega
  rw [h1, Nat.testBit_to_div_mod]
  exact div_high_bit (Nat.two_pow_pos _)
    (by rw [← hsplit]; exact Nat.mod_lt _ (Nat.two_pow_pos bits))

lemma Signed.mask_decomp {bits N : Nat} (h1 : 0 < bits) (h2 : bits < N) {p : Nat}
    (hp : p < 2 ^ N) :
    Signed.mask bits N p
      = p % 2 ^ bits + (if p.testBit (bits - 1) then 2 ^ N - 2 ^ bits else 0) := by
  have hcond : (p &&& ((1 <<< (bits - 1)) % 2 ^ N) = 0)
      ↔ p.testBit (bits - 1) = false := by
    rw [shl_one_mod (show bits - 1 < N by omega), Nat.and_two_pow]
    have hpos := Nat.two_pow_pos (bits - 1)
    cases p.testBit (bits - 1) <;> simp
  rw [Signed.mask, umask_const h2]
  cases htb : p.testBit (bits - 1) with
  | false =>
    rw [if_pos (hcond.mpr htb), if_neg (by simp), Nat.add_zero]
    exact Nat.and_pow_two_sub_one_eq_mod p bits
  | true =>
    rw [if_neg (by rw [hcond, htb]; simp), if_pos rfl, xor_ones (le_of_lt h2),
      lor_hi (le_of_lt h2) hp]
    omega

lemma Unsigned.mask_lt {bits N : Nat} (h : bits < N) (p : Nat) :
    Unsigned.mask bits N p < 2 ^ bits := by
  rw [Unsigned.mask_eq h]
  exact Nat.mod_lt _ (Nat.two_pow_pos bits)

lemma Signed.mask_lt_two_pow {bits N : Nat} (h1 : 0 < bits) (h2 : bits < N) {p : Nat}
    (hp : p < 2 ^ N) : Signed.mask bits N p < 2 ^ N := by
  rw [Signed.mask_decomp h1 h2 hp]
  have hm : p % 2 ^ bits < 2 ^ bits := Nat.mod_lt _ (Nat.two_pow_pos bits)
  have h3 : 2 ^ bits < 2 ^ N := Nat.pow_lt_pow_right (by norm_num) h2
  cases p.testBit (bits - 1) <;> simp <;> omega

lemma Signed.mask_mod {bits N : Nat} (h1 : 0 < bits) (h2 : bits < N) {p : Nat}
    (hp : p < 2 ^ N) :
    Signed.mask bits N p % 2 ^ bits = p % 2 ^ bits := by
  rw [Signed.mask_decomp h1 h2 hp, hi_eq_mul (le_of_lt h2)]
  cases p.testBit (bits - 1) <;> simp [Nat.add_mul_mod_self_left, Nat.mod_mod_of_dvd]

lemma Signed.testBit_mask {bits N : Nat} (h1 : 0 < bits) (h2 : bits < N) {p : Nat}
    (hp : p < 2 ^ N) :
    (Signed.mask bits N p).testBit (bits - 1) = p.testBit (bits - 1) := by
  rw [testBit_high_mod h1, testBit_high_mod h1, Signed.mask_mod h1 h2 hp]

lemma Unsigned.mask_idem (bits N p : Nat) :
    Unsigned.mask bits N (Unsigned.mask bits N p) = Unsigned.mask bits N p := by
  rw [Unsigned.mask, Unsigned.mask, Nat.and_assoc, Nat.and_self]

lemma Signed.mask_idempotent {bits N : Nat} (h1 : 0 < bits) (h2 : bits < N) {p : Nat}
    (hp : p < 2 ^ N) :
    Signed.mask bits N (Signed.mask bits N p) = Signed.mask bits N p := by
  rw [Signed.mask_decomp h1 h2 (Signed.mask_lt_two_pow h1 h2 hp), Signed.testBit_mask h1 h2 hp,
    Signed.mask_mod h1 h2 hp, ← Signed.mask_decomp h1 h2 hp]

end UX

namespace UX

/-! ## Toolkit: the two's-complement value maps -/

lemma supported_bounds {bits N : Nat} (h : (bits, N) ∈ supportedWidths) :
    2 ≤ bits ∧ bits < N ∧ N ≤ 64 := by
  have hall : supportedWidths.all
      (fun bn => decide (2 ≤ bn.1 ∧ bn.1 < bn.2 ∧ bn.2 ≤ 64)) = true := by decide
  have hx := List.all_eq_true.mp hall _ h
  simpa using hx

lemma two_pow_cast (N : Nat) : ((2 ^ N : Nat) : Int) = (2 : Int) ^ N := by
  push_cast
  rfl

lemma int_pow_split {N : Nat} (hN : 0 < N) :
    (2 : Int) ^ N = 2 ^ (N - 1) * 2 := by
  rw [← pow_succ]
  congr 1
  omega

lemma toInt_spec {N : Nat} (hN : 0 < N) {p : Nat} (hp : p < 2 ^ N) :
    toInt N p % (2 : Int) ^ N = (p : Int) % 2 ^ N
      ∧ -((2 : Int) ^ (N - 1)) ≤ toInt N p ∧ toInt N p < 2 ^ (N - 1) := by
  have hsplit := int_pow_split hN
  have hpc : (p : Int) < 2 ^ N := by exact_mod_cast hp
  have hp0 : (0 : Int) ≤ (p : Int) := Int.natCast_nonneg p
  unfold toInt
  split
  next hlt =>
    have hc : (p : Int) < 2 ^ (N - 1) := by exact_mod_cast hlt
    refine ⟨rfl, by omega, hc⟩
  next hge =>
    have hc : (2 : Int) ^ (N - 1) ≤ (p : Int) := by
      exact_mod_cast Nat.le_of_not_lt hge
    refine ⟨?_, by omega, by omega⟩
    rw [Int.sub_emod, Int.emod_self, Int.sub_zero, Int.emod_emod]

lemma ofInt_spec (N : Nat) (x : Int) :
    ((ofInt N x : Nat) : Int) % (2 : Int) ^ N = x % 2 ^ N
      ∧ ofInt N x < 2 ^ N := by
  have hpos : (0 : Int) < 2 ^ N := by positivity
  have h1 := Int.emod_nonneg x (show (2 : Int) ^ N ≠ 0 by positivity)
  have h2 := Int.emod_lt_of_pos x hpos
  have hcast := two_pow_cast N
  constructor
  · rw [ofInt, Int.toNat_of_nonneg h1]
    exact Int.emod_emod x _
  · rw [ofInt]
    generalize hm : x % (2 : Int) ^ N = r at h1 h2
    omega

lemma eq_of_emod_eq {M a b : Int} (_hM : 0 < M) (h : a % M = b % M)
    (h1 : -M < a - b) (h2 : a - b < M) : a = b := by
  have hd : M ∣ b - a := (Int.modEq_iff_dvd).mp h
  have hz : (b - a) % M = 0 := Int.emod_eq_zero_of_dvd hd
  rcases le_or_lt 0 (b - a) with hc | hc
  · have he := Int.emod_eq_of_lt hc (show b - a < M by omega)
    omega
  · have hzz : (b - a + M) % M = 0 := by
      rw [show b - a + M = b - a + M * 1 by ring, Int.add_mul_emod_self_left, hz]
    have he := Int.emod_eq_of_lt (show (0 : Int) ≤ b - a + M by omega)
      (show b - a + M < M by omega)
    omega

lemma ofInt_toInt {N : Nat} (hN : 0 < N) {p : Nat} (hp : p < 2 ^ N) :
    ofInt N (toInt N p) = p := by
  obtain ⟨hm, hlo, hhi⟩ := toInt_spec hN hp
  obtain ⟨hm2, hlt⟩ := ofInt_spec N (toInt N p)
  have hpos : (0 : Int) < 2 ^ N := by positivity
  have hyc : ((ofInt N (toInt N p) : Nat) : Int) < 2 ^ N := by
    rw [← two_pow_cast]
    exact_mod_cast hlt
  have hy0 : (0 : Int) ≤ ((ofInt N (toInt N p) : Nat) : Int) := Int.natCast_nonneg _
  have hpc : (p : Int) < 2 ^ N := by exact_mod_cast hp
  have hp0 : (0 : Int) ≤ (p : Int) := Int.natCast_nonneg p
  have := eq_of_emod_eq hpos (hm2.trans hm) (by omega) (by omega)
  exact_mod_cast this

lemma toInt_ofInt {N : Nat} (hN : 0 < N) {x : Int}
    (h1 : -((2 : Int) ^ (N - 1)) ≤ x) (h2 : x < 2 ^ (N - 1)) :
    toInt N (ofInt N x) = x := by
  have hsplit := int_pow_split hN
  obtain ⟨hm2, hlt⟩ := ofInt_spec N x
  obtain ⟨hm, hlo, hhi⟩ := toInt_spec hN hlt
  have hpos : (0 : Int) < 2 ^ N := by positivity
  exact eq_of_emod_eq hpos (hm.trans hm2) (by omega) (by omega)

end UX

namespace UX

lemma nat_pow_split {N : Nat} (hN : 0 < N) : (2 : Nat) ^ N = 2 ^ (N - 1) * 2 := by
  rw [← Nat.pow_succ]
  congr 1
  omega

lemma Signed.toInt_mask {bits N : Nat} (h1 : 0 < bits) (h2 : bits < N) {p : Nat}
    (hp : p < 2 ^ N) :
    toInt N (Signed.mask bits N p) % (2 : Int) ^ bits = (p : Int) % 2 ^ bits
      ∧ -((2 : Int) ^ (bits - 1)) ≤ toInt N (Signed.mask bits N p)
      ∧ toInt N (Signed.mask bits N p) < 2 ^ (bits - 1) := by
  have hmlt : p % 2 ^ bits < 2 ^ bits := Nat.mod_lt _ (Nat.two_pow_pos bits)
  have hcast : ((p % 2 ^ bits : Nat) : Int) = (p : Int) % 2 ^ bits := by
    rw [Int.natCast_mod, two_pow_cast]
  have hNc := two_pow_cast N
  have hbc := two_pow_cast bits
  have hb1c := two_pow_cast (bits - 1)
  have hbsplit : (2 : Int) ^ bits = 2 ^ (bits - 1) * 2 := int_pow_split h1
  have htbm := testBit_high_mod h1 p
  rw [Signed.mask_decomp h1 h2 hp]
  cases htb : p.testBit (bits - 1) with
  | false =>
    rw [if_neg (by simp), Nat.add_zero]
    have hb : ¬ 2 ^ (bits - 1) ≤ p % 2 ^ bits := by
      rw [htb] at htbm
      exact of_decide_eq_false htbm.symm
    have hlt1 : p % 2 ^ bits < 2 ^ (N - 1) :=
      lt_of_lt_of_le hmlt (Nat.pow_le_pow_right (by norm_num) (by omega))
    rw [toInt, if_pos hlt1]
    refine ⟨by rw [hcast, Int.emod_emod], by omega, by omega⟩
  | true =>
    rw [if_pos rfl]
    have hb : 2 ^ (bits - 1) ≤ p % 2 ^ bits := by
      rw [htb] at htbm
      exact of_decide_eq_true htbm.symm
    have hpowN : (2 : Nat) ^ bits ≤ 2 ^ N :=
      Nat.pow_le_pow_right (by norm_num) (by omega)
    have hpow1 : (2 : Nat) ^ bits ≤ 2 ^ (N - 1) :=
      Nat.pow_le_pow_right (by norm_num) (by omega)
    have hsplitN : (2 : Nat) ^ N = 2 ^ (N - 1) * 2 := nat_pow_split (by omega)
    rw [toInt, if_neg (by omega)]
    have hcc : ((p % 2 ^ bits + (2 ^ N - 2 ^ bits) : Nat) : Int)
        = ((p % 2 ^ bits : Nat) : Int) + (2 : Int) ^ N - (2 : Int) ^ bits := by
      rw [Nat.cast_add, Nat.cast_sub hpowN, hNc, hbc]
      ring
    rw [hcc, show ((p % 2 ^ bits : Nat) : Int) + (2 : Int) ^ N - (2 : Int) ^ bits
        - (2 : Int) ^ N = ((p % 2 ^ bits : Nat) : Int) - (2 : Int) ^ bits by ring]
    refine ⟨?_, by omega, by omega⟩
    rw [Int.sub_emod, Int.emod_self, Int.sub_zero, Int.emod_emod, hcast,
      Int.emod_emod]

lemma Unsigned.canonical_iff {bits N : Nat} (h : bits < N) (p : Nat) :
    Unsigned.canonical bits N p ↔ p < 2 ^ bits := by
  rw [Unsigned.canonical, Unsigned.mask_eq h]
  constructor
  · intro he
    rw [← he]
    exact Nat.mod_lt _ (Nat.two_pow_pos bits)
  · exact Nat.mod_eq_of_lt

lemma Signed.canonical_iff_range {bits N : Nat} (h1 : 0 < bits) (h2 : bits < N) {p : Nat}
    (hp : p < 2 ^ N) :
    Signed.canonical bits N p
      ↔ (-((2 : Int) ^ (bits - 1)) ≤ toInt N p ∧ toInt N p < 2 ^ (bits - 1)) := by
  constructor
  · intro hc
    have hm := Signed.toInt_mask h1 h2 hp
    rw [hc] at hm
    exact ⟨hm.2.1, hm.2.2⟩
  · rintro ⟨hlo, hhi⟩
    have hNc := two_pow_cast N
    have hbc := two_pow_cast bits
    have hb1c := two_pow_cast (bits - 1)
    have hsplitb : (2 : Nat) ^ bits = 2 ^ (bits - 1) * 2 := nat_pow_split h1
    have hpow1 : (2 : Nat) ^ bits ≤ 2 ^ (N - 1) :=
      Nat.pow_le_pow_right (by norm_num) (by omega)
    have hsplitN : (2 : Nat) ^ N = 2 ^ (N - 1) * 2 := nat_pow_split (by omega)
    have htbm := testBit_high_mod h1 p
    rw [Signed.canonical, Signed.mask_decomp h1 h2 hp]
    rw [toInt] at hlo hhi
    by_cases hbr : p < 2 ^ (N - 1)
    · rw [if_pos hbr] at hlo hhi
      have hps : p < 2 ^ (bits - 1) := by omega
      have hmod : p % 2 ^ bits = p := Nat.mod_eq_of_lt (by omega)
      have htb : p.testBit (bits - 1) = false := by
        rw [htbm, decide_eq_false_iff_not]
        omega
      rw [htb, if_neg (by simp), Nat.add_zero, hmod]
    · rw [if_neg hbr] at hlo hhi
      have hplo : 2 ^ N - 2 ^ (bits - 1) ≤ p := by omega
      have hdecomp : p = 2 ^ bits * (2 ^ (N - bits) - 1) + (p - (2 ^ N - 2 ^ bits)) := by
        rw [← hi_eq_mul (le_of_lt h2)]
        omega
      have hrlt : p - (2 ^ N - 2 ^ bits) < 2 ^ bits := by omega
      have hmod : p % 2 ^ bits = p - (2 ^ N - 2 ^ bits) := by
        conv_lhs => rw [hdecomp]
        rw [Nat.mul_add_mod]
        exact Nat.mod_eq_of_lt hrlt
      have htb : p.testBit (bits - 1) = true := by
        rw [htbm, decide_eq_true_eq, hmod]
        omega
      rw [htb, if_pos rfl, hmod]
      omega

end UX

namespace UX

/-! ## Toolkit: constants, comparison helpers, misc bit lemmas -/

lemma Unsigned.MAX_eq {bits N : Nat} (h : bits < N) :
    Unsigned.MAX bits N = 2 ^ bits - 1 := by
  rw [Unsigned.MAX, shl_one_mod h]

lemma Signed.MAX_value {bits N : Nat} (h1 : 0 < bits) (h2 : bits < N) :
    Signed.MAX bits N = (2 : Int) ^ (bits - 1) - 1 := by
  rw [Signed.MAX, shl_one_mod (show bits - 1 < N by omega), toInt,
    if_pos (Nat.pow_lt_pow_right (by norm_num) (show bits - 1 < N - 1 by omega)),
    two_pow_cast]

lemma Signed.MIN_eq {bits N : Nat} (h1 : 0 < bits) (h2 : bits < N) :
    Signed.MIN bits N = -((2 : Int) ^ (bits - 1)) := by
  rw [Signed.MIN, shl_one_mod (show bits - 1 < N by omega), toInt,
    if_pos (Nat.pow_lt_pow_right (by norm_num) (show bits - 1 < N - 1 by omega)),
    two_pow_cast]

lemma toInt_inj {N : Nat} (hN : 0 < N) {p q : Nat} (hp : p < 2 ^ N)
    (hq : q < 2 ^ N) (h : toInt N p = toInt N q) : p = q := by
  have h1 := ofInt_toInt hN hp
  have h2 := ofInt_toInt hN hq
  rw [← h1, ← h2, h]

lemma signed_unique {bits : Nat} (h1 : 0 < bits) {v w : Int}
    (hm : v % (2 : Int) ^ bits = w % 2 ^ bits)
    (hv1 : -((2 : Int) ^ (bits - 1)) ≤ v) (hv2 : v < 2 ^ (bits - 1))
    (hw1 : -((2 : Int) ^ (bits - 1)) ≤ w) (hw2 : w < 2 ^ (bits - 1)) : v = w := by
  have hsplit := int_pow_split h1
  have hpos : (0 : Int) < 2 ^ bits := by positivity
  exact eq_of_emod_eq hpos hm (by omega) (by omega)

lemma ediv_sign_range (v d : Int) (hd : 0 < d) :
    (0 ≤ v → 0 ≤ v / d ∧ v / d ≤ v) ∧ (v ≤ 0 → v ≤ v / d ∧ v / d ≤ 0) := by
  constructor
  · intro hv
    exact ⟨Int.ediv_nonneg hv (le_of_lt hd), Int.ediv_le_self d hv⟩
  · intro hv
    constructor
    · rw [Int.le_ediv_iff_mul_le hd]
      have hmul : v * d ≤ v * 1 := mul_le_mul_of_nonpos_left (by omega) hv
      omega
    · have hnot : ¬ 1 ≤ v / d := by
        rw [Int.le_ediv_iff_mul_le hd]
        omega
      omega

lemma lor_mod_two_pow (a b k : Nat) :
    (a ||| b) % 2 ^ k = a % 2 ^ k ||| b % 2 ^ k := by
  apply Nat.eq_of_testBit_eq
  intro i
  simp only [Nat.testBit_mod_two_pow, Nat.testBit_or]
  by_cases hik : i < k <;> simp [hik]

lemma ncmp_lt_iff {a b : Nat} : ncmp a b = Ordering.lt ↔ a < b := by
  rw [ncmp]
  split_ifs with hab heq <;> simp <;> omega

lemma ncmp_eq_iff {a b : Nat} : ncmp a b = Ordering.eq ↔ a = b := by
  rw [ncmp]
  split_ifs with hab heq <;> simp <;> omega

lemma ncmp_gt_iff {a b : Nat} : ncmp a b = Ordering.gt ↔ b < a := by
  rw [ncmp]
  split_ifs with hab heq <;> simp <;> omega

lemma icmp_lt_iff {a b : Int} : icmp a b = Ordering.lt ↔ a < b := by
  rw [icmp]
  split_ifs with hab heq <;> simp <;> omega

lemma icmp_eq_iff {a b : Int} : icmp a b = Ordering.eq ↔ a = b := by
  rw [icmp]
  split_ifs with hab heq <;> simp <;> omega

lemma icmp_gt_iff {a b : Int} : icmp a b = Ordering.gt ↔ b < a := by
  rw [icmp]
  split_ifs with hab heq <;> simp <;> omega

end UX

namespace UX

lemma lor_split {bits N : Nat} (h : bits ≤ N) {a : Nat} (ha : a < 2 ^ bits) :
    a + (2 ^ N - 2 ^ bits) = (2 ^ N - 2 ^ bits) ||| a := by
  rw [hi_eq_mul h, Nat.add_comm, Nat.mul_add_lt_is_or ha]

lemma Signed.mask_lor_canonical {bits N : Nat} (h1 : 0 < bits) (h2 : bits < N)
    {p q : Nat} (hp : p < 2 ^ N) (hq : q < 2 ^ N) :
    Signed.mask bits N (Signed.mask bits N p ||| Signed.mask bits N q)
      = Signed.mask bits N p ||| Signed.mask bits N q := by
  have hPlt := Signed.mask_lt_two_pow h1 h2 hp
  have hQlt := Signed.mask_lt_two_pow h1 h2 hq
  have hOr : Signed.mask bits N p ||| Signed.mask bits N q < 2 ^ N :=
    Nat.or_lt_two_pow hPlt hQlt
  have hA : p % 2 ^ bits < 2 ^ bits := Nat.mod_lt _ (Nat.two_pow_pos bits)
  have hB : q % 2 ^ bits < 2 ^ bits := Nat.mod_lt _ (Nat.two_pow_pos bits)
  have hAB : p % 2 ^ bits ||| q % 2 ^ bits < 2 ^ bits := Nat.or_lt_two_pow hA hB
  have hmod : (Signed.mask bits N p ||| Signed.mask bits N q) % 2 ^ bits
      = p % 2 ^ bits ||| q % 2 ^ bits := by
    rw [lor_mod_two_pow, Signed.mask_mod h1 h2 hp, Signed.mask_mod h1 h2 hq]
  have htbit : (Signed.mask bits N p ||| Signed.mask bits N q).testBit (bits - 1)
      = (p.testBit (bits - 1) || q.testBit (bits - 1)) := by
    rw [Nat.testBit_or, Signed.testBit_mask h1 h2 hp, Signed.testBit_mask h1 h2 hq]
  rw [Signed.mask_decomp h1 h2 hOr, hmod, htbit,
    Signed.mask_decomp h1 h2 hp, Signed.mask_decomp h1 h2 hq]
  cases htP : p.testBit (bits - 1) <;> cases htQ : q.testBit (bits - 1) <;>
    simp only [Bool.or_self, Bool.or_false, Bool.false_or, Bool.or_true,
      Bool.true_or, eq_self_iff_true, if_true,
      if_neg (by simp : ¬ (false = true)), Nat.add_zero]
  · rw [lor_split (le_of_lt h2) hAB, lor_split (le_of_lt h2) hB]
    apply Nat.eq_of_testBit_eq
    intro i
    simp only [Nat.testBit_or]
    cases (2 ^ N - 2 ^ bits).testBit i <;>
      cases (p % 2 ^ bits).testBit i <;>
      cases (q % 2 ^ bits).testBit i <;> rfl
  · rw [lor_split (le_of_lt h2) hAB, lor_split (le_of_lt h2) hA]
    apply Nat.eq_of_testBit_eq
    intro i
    simp only [Nat.testBit_or]
    cases (2 ^ N - 2 ^ bits).testBit i <;>
      cases (p % 2 ^ bits).testBit i <;>
      cases (q % 2 ^ bits).testBit i <;> rfl
  · rw [lor_split (le_of_lt h2) hAB, lor_split (le_of_lt h2) hA,
      lor_split (le_of_lt h2) hB]
    apply Nat.eq_of_testBit_eq
    intro i
    simp only [Nat.testBit_or]
    cases (2 ^ N - 2 ^ bits).testBit i <;>
      cases (p % 2 ^ bits).testBit i <;>
      cases (q % 2 ^ bits).testBit i <;> rfl

end UX

namespace UX

/-! ## Claim theorems -/

/-- Claim C9. For every supported width `B` the unsigned `MAX` is `2^B - 1`, the
unsigned `MIN` is `0`, the signed `MAX` is `2^(B-1) - 1` and the signed
`MIN` is `-2^(B-1)`; `min_value` / `max_value` return exactly these
constants (pure total functions); concretely `u2::MAX = 3`, `i2::MAX = 1`,
`i2::MIN = -2`, `u9::MAX = 511`, `i9::MAX = 255`, `i9::MIN = -256`, and at
the extreme width 63 on the 64-bit backing type `u63::MAX = 2^63 - 1`,
`i63::MAX = 2^62 - 1`, `i63::MIN = -2^62`. -/
theorem claimC9 :
    (∀ bits N, (bits, N) ∈ supportedWidths →
      Unsigned.MAX bits N = 2 ^ bits - 1
        ∧ Unsigned.MIN bits N = 0
        ∧ Signed.MAX bits N = (2 : Int) ^ (bits - 1) - 1
        ∧ Signed.MIN bits N = -((2 : Int) ^ (bits - 1))
        ∧ Unsigned.min_value bits N = Unsigned.MIN bits N
        ∧ Unsigned.max_value bits N = Unsigned.MAX bits N
        ∧ Signed.min_value bits N = Signed.MIN bits N
        ∧ Signed.max_value bits N = Signed.MAX bits N)
    ∧ Unsigned.MAX 2 8 = 3 ∧ Signed.MAX 2 8 = 1 ∧ Signed.MIN 2 8 = -2
    ∧ Unsigned.MAX 9 16 = 511 ∧ Signed.MAX 9 16 = 255 ∧ Signed.MIN 9 16 = -256
    ∧ Unsigned.MIN 2 8 = 0 ∧ Unsigned.MIN 9 16 = 0
    ∧ Unsigned.MAX 63 64 = 2 ^ 63 - 1 ∧ Unsigned.MIN 63 64 = 0
    ∧ Signed.MAX 63 64 = 2 ^ 62 - 1 ∧ Signed.MIN 63 64 = -(2 ^ 62) := by
  refine ⟨?_, by decide, by decide, by decide, by decide, by decide, by decide,
    by decide, by decide, by decide, by decide, by decide, by decide⟩
  intro bits N h
  obtain ⟨hb2, hbN, _⟩ := supported_bounds h
  exact ⟨Unsigned.MAX_eq hbN, rfl, Signed.MAX_value (by omega) hbN,
    Signed.MIN_eq (by omega) hbN, rfl, rfl, rfl, rfl⟩

/-- Witness for C9: the hypothesis of the universal part is satisfiable,
e.g. at width 5 over the 8-bit backing type. -/
theorem claimC9_witness :
    (5, 8) ∈ supportedWidths ∧ Unsigned.MAX 5 8 = 2 ^ 5 - 1 :=
  ⟨by decide, (claimC9.1 5 8 (by decide)).1⟩

/-- Claim C5. `new(value)` succeeds and stores exactly `value` whenever
`MIN ≤ value ≤ MAX` (native comparison on the unmasked input), the result
is canonical, and for every out-of-range value `new` fails with the fatal
assertion (modelled as `none`) — never a silent truncation.  For the signed
types the stored pattern of an accepted value is the sign-extended
canonical pattern and its native value is exactly the input. -/
theorem claimC5 (bits N : Nat) (h : (bits, N) ∈ supportedWidths) :
    (∀ v : Nat, Unsigned.MIN bits N ≤ v ∧ v ≤ Unsigned.MAX bits N →
        Unsigned.new bits N v = some v ∧ Unsigned.canonical bits N v)
    ∧ (∀ v : Nat, ¬ (Unsigned.MIN bits N ≤ v ∧ v ≤ Unsigned.MAX bits N) →
        Unsigned.new bits N v = none)
    ∧ (∀ x : Int, Signed.MIN bits N ≤ x ∧ x ≤ Signed.MAX bits N →
        Signed.new bits N x = some x ∧ Signed.canonical bits N (ofInt N x)
          ∧ toInt N (ofInt N x) = x)
    ∧ (∀ x : Int, ¬ (Signed.MIN bits N ≤ x ∧ x ≤ Signed.MAX bits N) →
        Signed.new bits N x = none) := by
  obtain ⟨hb2, hbN, _⟩ := supported_bounds h
  have hb1 : 0 < bits := by omega
  have hN : 0 < N := by omega
  have hpowb : (2 : Int) ^ (bits - 1) ≤ 2 ^ (N - 1) :=
    pow_le_pow_right₀ (by norm_num) (by omega)
  refine ⟨?_, ?_, ?_, ?_⟩
  · intro v ⟨h1, h2⟩
    refine ⟨by rw [Unsigned.new, if_pos ⟨h2, h1⟩], ?_⟩
    rw [Unsigned.canonical_iff hbN]
    have := Unsigned.MAX_eq hbN
    have := Nat.two_pow_pos bits
    omega
  · intro v hv
    rw [Unsigned.new, if_neg (by tauto)]
  · intro x ⟨h1, h2⟩
    rw [Signed.MIN_eq hb1 hbN] at h1
    rw [Signed.MAX_value hb1 hbN] at h2
    have hx1 : -((2 : Int) ^ (N - 1)) ≤ x := by omega
    have hx2 : x < 2 ^ (N - 1) := by omega
    have hval : toInt N (ofInt N x) = x := toInt_ofInt hN hx1 hx2
    refine ⟨?_, ?_, hval⟩
    · rw [Signed.new, if_pos ⟨by rw [Signed.MAX_value hb1 hbN]; omega,
        by rw [Signed.MIN_eq hb1 hbN]; omega⟩]
    · rw [Signed.canonical_iff_range hb1 hbN (ofInt_spec N x).2, hval]
      constructor <;> omega
  · intro x hx
    rw [Signed.new, if_neg (by tauto)]

/-- Witness for C5 at width 5 over the 8-bit backing type: `new` accepts 31
and stores it canonically, and rejects 32. -/
theorem claimC5_witness :
    Unsigned.new 5 8 31 = some 31 ∧ Unsigned.new 5 8 32 = none := by
  have h := claimC5 5 8 (by decide)
  exact ⟨(h.1 31 (by decide)).1, h.2.1 32 (by decide)⟩

end UX

namespace UX

/-- Claim C2. For every raw backing value `p` the mask operation returns the
canonical form of the low `B` bits of `p`: the unsigned mask clears every
bit at a position `≥ B`; the signed mask clears them when bit `B-1` of `p`
is zero and sets them all (sign extension) when bit `B-1` is one; in both
cases the low `B` bits are unchanged.  Concretely, the width-4 unsigned
mask of `0b11000110` is `0b00000110` and the width-4 signed mask of
`0b00001000` is `0b11111000`. -/
theorem claimC2 (bits N : Nat) (h : (bits, N) ∈ supportedWidths) :
    (∀ p : Nat,
        (∀ i, bits ≤ i → (Unsigned.mask bits N p).testBit i = false)
        ∧ (∀ i, i < bits → (Unsigned.mask bits N p).testBit i = p.testBit i))
    ∧ (∀ p : Nat, p < 2 ^ N →
        (p.testBit (bits - 1) = false →
          ∀ i, bits ≤ i → (Signed.mask bits N p).testBit i = false)
        ∧ (p.testBit (bits - 1) = true →
          ∀ i, bits ≤ i → i < N → (Signed.mask bits N p).testBit i = true)
        ∧ (∀ i, i < bits → (Signed.mask bits N p).testBit i = p.testBit i))
    ∧ Unsigned.mask 4 8 0b11000110 = 0b00000110
    ∧ Signed.mask 4 8 0b00001000 = 0b11111000 := by
  obtain ⟨hb2, hbN, _⟩ := supported_bounds h
  have hb1 : 0 < bits := by omega
  refine ⟨?_, ?_, by decide, by decide⟩
  · intro p
    rw [Unsigned.mask_eq hbN]
    constructor
    · intro i hi
      rw [Nat.testBit_mod_two_pow]
      simp [show ¬ i < bits by omega]
    · intro i hi
      rw [Nat.testBit_mod_two_pow]
      simp [hi]
  · intro p hp
    have hmlt : p % 2 ^ bits < 2 ^ bits := Nat.mod_lt _ (Nat.two_pow_pos bits)
    refine ⟨?_, ?_, ?_⟩
    · intro htb i hi
      rw [Signed.mask_decomp hb1 hbN hp, htb, if_neg (by simp), Nat.add_zero,
        Nat.testBit_mod_two_pow]
      simp [show ¬ i < bits by omega]
    · intro htb i hi hiN
      rw [Signed.mask_decomp hb1 hbN hp, htb, if_pos rfl, hi_eq_mul (le_of_lt hbN),
        Nat.add_comm, Nat.testBit_mul_pow_two_add _ hmlt,
        if_neg (show ¬ i < bits by omega), Nat.testBit_two_pow_sub_one]
      simp
      omega
    · intro i hi
      rw [Signed.mask_decomp hb1 hbN hp]
      cases htb : p.testBit (bits - 1) with
      | false =>
        rw [if_neg (by simp), Nat.add_zero, Nat.testBit_mod_two_pow]
        simp [hi]
      | true =>
        rw [if_pos rfl, hi_eq_mul (le_of_lt hbN), Nat.add_comm,
          Nat.testBit_mul_pow_two_add _ hmlt, if_pos hi,
          Nat.testBit_mod_two_pow]
        simp [hi]

/-- Witness for C2 at width 4 over the 8-bit backing type: bit 6 of the
unsigned mask of `0b11000110` is cleared. -/
theorem claimC2_witness :
    (Unsigned.mask 4 8 0b11000110).testBit 6 = false :=
  (claimC2 4 8 (by decide)).1 0b11000110 |>.1 6 (by decide)

end UX

namespace UX

/-- Claim C1. For every supported width and all in-range operands, wrapping
addition and subtraction return the unique representable value of the type
congruent to the true sum (resp. difference) modulo `2^B`, in canonical
form; in particular `MAX.wrapping_add(1) == MIN` for both families. -/
theorem claimC1 (bits N : Nat) (h : (bits, N) ∈ supportedWidths) :
    (∀ p q : Nat, p ≤ Unsigned.MAX bits N → q ≤ Unsigned.MAX bits N →
        Unsigned.wrapping_add bits N p q = (p + q) % 2 ^ bits
        ∧ Unsigned.wrapping_sub bits N p q = (p + (2 ^ bits - q)) % 2 ^ bits
        ∧ Unsigned.canonical bits N (Unsigned.wrapping_add bits N p q)
        ∧ Unsigned.canonical bits N (Unsigned.wrapping_sub bits N p q))
    ∧ (∀ x y : Int,
        Signed.MIN bits N ≤ x → x ≤ Signed.MAX bits N →
        Signed.MIN bits N ≤ y → y ≤ Signed.MAX bits N →
        (toInt N (Signed.wrapping_add bits N (ofInt N x) (ofInt N y)) % (2 : Int) ^ bits
            = (x + y) % 2 ^ bits
          ∧ Signed.MIN bits N ≤ toInt N (Signed.wrapping_add bits N (ofInt N x) (ofInt N y))
          ∧ toInt N (Signed.wrapping_add bits N (ofInt N x) (ofInt N y)) ≤ Signed.MAX bits N
          ∧ Signed.canonical bits N (Signed.wrapping_add bits N (ofInt N x) (ofInt N y)))
        ∧ (toInt N (Signed.wrapping_sub bits N (ofInt N x) (ofInt N y)) % (2 : Int) ^ bits
            = (x - y) % 2 ^ bits
          ∧ Signed.MIN bits N ≤ toInt N (Signed.wrapping_sub bits N (ofInt N x) (ofInt N y))
          ∧ toInt N (Signed.wrapping_sub bits N (ofInt N x) (ofInt N y)) ≤ Signed.MAX bits N
          ∧ Signed.canonical bits N (Signed.wrapping_sub bits N (ofInt N x) (ofInt N y))))
    ∧ Unsigned.wrapping_add bits N (Unsigned.MAX bits N) 1 = Unsigned.MIN bits N
    ∧ toInt N (Signed.wrapping_add bits N (ofInt N (Signed.MAX bits N)) (ofInt N 1))
        = Signed.MIN bits N := by
  obtain ⟨hb2, hbN, _⟩ := supported_bounds h
  have hb1 : 0 < bits := by omega
  have hN : 0 < N := by omega
  have hMu := Unsigned.MAX_eq hbN
  have hMs := Signed.MAX_value hb1 hbN
  have hmins := Signed.MIN_eq hb1 hbN
  have hposb := Nat.two_pow_pos bits
  have hposb1 := Nat.two_pow_pos (bits - 1)
  have hpbN : (2 : Nat) ^ bits ≤ 2 ^ N := Nat.pow_le_pow_right (by norm_num) (by omega)
  have hdvd : (2 : Nat) ^ bits ∣ 2 ^ N := pow_dvd_pow 2 (le_of_lt hbN)
  have hdvdI : (2 : Int) ^ bits ∣ 2 ^ N := pow_dvd_pow 2 (le_of_lt hbN)
  have hpowb : (2 : Int) ^ (bits - 1) ≤ 2 ^ (N - 1) :=
    pow_le_pow_right₀ (by norm_num) (by omega)
  have hbsplit : (2 : Int) ^ bits = 2 ^ (bits - 1) * 2 := int_pow_split hb1
  have hUn : ∀ p q : Nat, p ≤ Unsigned.MAX bits N → q ≤ Unsigned.MAX bits N →
      Unsigned.wrapping_add bits N p q = (p + q) % 2 ^ bits
      ∧ Unsigned.wrapping_sub bits N p q = (p + (2 ^ bits - q)) % 2 ^ bits
      ∧ Unsigned.canonical bits N (Unsigned.wrapping_add bits N p q)
      ∧ Unsigned.canonical bits N (Unsigned.wrapping_sub bits N p q) := by
    intro p q hpm hqm
    have hpb : p < 2 ^ bits := by omega
    have hqb : q < 2 ^ bits := by omega
    have hqN : q < 2 ^ N := by omega
    have hadd : Unsigned.wrapping_add bits N p q = (p + q) % 2 ^ bits := by
      rw [Unsigned.wrapping_add, wadd, Unsigned.mask_eq hbN,
        Nat.mod_mod_of_dvd _ hdvd]
    have hsub : Unsigned.wrapping_sub bits N p q = (p + (2 ^ bits - q)) % 2 ^ bits := by
      rw [Unsigned.wrapping_sub, wsub, Unsigned.mask_eq hbN,
        Nat.mod_mod_of_dvd _ hdvd, Nat.mod_eq_of_lt hqN,
        show p + (2 ^ N - q) = (p + (2 ^ bits - q)) + 2 ^ bits * (2 ^ (N - bits) - 1) by
          rw [← hi_eq_mul (le_of_lt hbN)]; omega,
        Nat.add_mul_mod_self_left]
    refine ⟨hadd, hsub, ?_, ?_⟩
    · rw [Unsigned.canonical_iff hbN, hadd]
      exact Nat.mod_lt _ hposb
    · rw [Unsigned.canonical_iff hbN, hsub]
      exact Nat.mod_lt _ hposb
  have hSg : ∀ x y : Int,
      Signed.MIN bits N ≤ x → x ≤ Signed.MAX bits N →
      Signed.MIN bits N ≤ y → y ≤ Signed.MAX bits N →
      (toInt N (Signed.wrapping_add bits N (ofInt N x) (ofInt N y)) % (2 : Int) ^ bits
          = (x + y) % 2 ^ bits
        ∧ Signed.MIN bits N ≤ toInt N (Signed.wrapping_add bits N (ofInt N x) (ofInt N y))
        ∧ toInt N (Signed.wrapping_add bits N (ofInt N x) (ofInt N y)) ≤ Signed.MAX bits N
        ∧ Signed.canonical bits N (Signed.wrapping_add bits N (ofInt N x) (ofInt N y)))
      ∧ (toInt N (Signed.wrapping_sub bits N (ofInt N x) (ofInt N y)) % (2 : Int) ^ bits
          = (x - y) % 2 ^ bits
        ∧ Signed.MIN bits N ≤ toInt N (Signed.wrapping_sub bits N (ofInt N x) (ofInt N y))
        ∧ toInt N (Signed.wrapping_sub bits N (ofInt N x) (ofInt N y)) ≤ Signed.MAX bits N
        ∧ Signed.canonical bits N (Signed.wrapping_sub bits N (ofInt N x) (ofInt N y))) := by
    intro x y hx1 hx2 hy1 hy2
    simp only [Signed.wrapping_add, Signed.wrapping_sub]
    obtain ⟨hPm, hPlt⟩ := ofInt_spec N x
    obtain ⟨hQm, hQlt⟩ := ofInt_spec N y
    have hPb : ((ofInt N x : Nat) : Int) % (2 : Int) ^ bits = x % 2 ^ bits := by
      rw [← Int.emod_emod_of_dvd _ hdvdI, hPm, Int.emod_emod_of_dvd _ hdvdI]
    have hQb : ((ofInt N y : Nat) : Int) % (2 : Int) ^ bits = y % 2 ^ bits := by
      rw [← Int.emod_emod_of_dvd _ hdvdI, hQm, Int.emod_emod_of_dvd _ hdvdI]
    constructor
    · -- wrapping_add
      have hw : wadd N (ofInt N x) (ofInt N y) < 2 ^ N :=
        Nat.mod_lt _ (Nat.two_pow_pos N)
      obtain ⟨tm1, tm2, tm3⟩ := Signed.toInt_mask hb1 hbN hw
      have hcong : ((wadd N (ofInt N x) (ofInt N y) : Nat) : Int) % (2 : Int) ^ bits
          = (x + y) % 2 ^ bits := by
        rw [wadd, Int.natCast_mod, two_pow_cast, Int.emod_emod_of_dvd _ hdvdI,
          Nat.cast_add]
        calc (((ofInt N x : Nat) : Int) + ((ofInt N y : Nat) : Int)) % (2 : Int) ^ bits
            = ((x % 2 ^ bits) + ((ofInt N y : Nat) : Int) % 2 ^ bits) % 2 ^ bits := by
              rw [Int.add_emod, hPb]
          _ = (x + y) % 2 ^ bits := by rw [hQb, ← Int.add_emod]
      have hval := tm1.trans hcong
      refine ⟨hval, ?_, ?_, Signed.mask_idempotent hb1 hbN hw⟩
      · rw [hmins]
        exact tm2
      · rw [hMs]
        exact Int.le_sub_one_of_lt tm3
    · -- wrapping_sub
      have hQN : ofInt N y % 2 ^ N = ofInt N y := Nat.mod_eq_of_lt hQlt
      have hw : wsub N (ofInt N x) (ofInt N y) < 2 ^ N :=
        Nat.mod_lt _ (Nat.two_pow_pos N)
      obtain ⟨tm1, tm2, tm3⟩ := Signed.toInt_mask hb1 hbN hw
      have hcong : ((wsub N (ofInt N x) (ofInt N y) : Nat) : Int) % (2 : Int) ^ bits
          = (x - y) % 2 ^ bits := by
        rw [wsub, hQN, Int.natCast_mod, two_pow_cast, Int.emod_emod_of_dvd _ hdvdI]
        rw [Nat.cast_add, Nat.cast_sub (le_of_lt hQlt), two_pow_cast]
        rw [show ((ofInt N x : Nat) : Int) + ((2 : Int) ^ N - ((ofInt N y : Nat) : Int))
            = (((ofInt N x : Nat) : Int) - ((ofInt N y : Nat) : Int))
              + 2 ^ bits * 2 ^ (N - bits) by
          rw [← pow_add]
          rw [show bits + (N - bits) = N by omega]
          ring]
        rw [Int.add_mul_emod_self_left]
        calc (((ofInt N x : Nat) : Int) - ((ofInt N y : Nat) : Int)) % (2 : Int) ^ bits
            = ((x % 2 ^ bits) - ((ofInt N y : Nat) : Int) % 2 ^ bits) % 2 ^ bits := by
              rw [Int.sub_emod, hPb]
          _ = (x - y) % 2 ^ bits := by rw [hQb, ← Int.sub_emod]
      have hval := tm1.trans hcong
      refine ⟨hval, ?_, ?_, Signed.mask_idempotent hb1 hbN hw⟩
      · rw [hmins]
        exact tm2
      · rw [hMs]
        exact Int.le_sub_one_of_lt tm3
  have h4pow : (2 : Nat) ^ 2 ≤ 2 ^ bits := Nat.pow_le_pow_right (by norm_num) hb2
  have hwrapU : Unsigned.wrapping_add bits N (Unsigned.MAX bits N) 1
      = Unsigned.MIN bits N := by
    have hone : (1 : Nat) ≤ Unsigned.MAX bits N := by rw [hMu]; omega
    have hws := (hUn (Unsigned.MAX bits N) 1 (le_refl _) hone).1
    rw [hws, show Unsigned.MAX bits N + 1 = 2 ^ bits by rw [hMu]; omega,
      Nat.mod_self]
    rfl
  have hb1pos : (0 : Int) < 2 ^ (bits - 1) := by positivity
  have h2le : (2 : Int) ≤ 2 ^ (bits - 1) := by
    calc (2 : Int) = 2 ^ 1 := (pow_one 2).symm
      _ ≤ 2 ^ (bits - 1) := pow_le_pow_right₀ (by norm_num) (by omega)
  have hwrapS : toInt N (Signed.wrapping_add bits N (ofInt N (Signed.MAX bits N))
      (ofInt N 1)) = Signed.MIN bits N := by
    have hminle : Signed.MIN bits N ≤ Signed.MAX bits N := by
      rw [hmins, hMs]
      omega
    have h1lo : Signed.MIN bits N ≤ 1 := by
      rw [hmins]
      omega
    have h1hi : (1 : Int) ≤ Signed.MAX bits N := by
      rw [hMs]
      omega
    obtain ⟨hv1, hv2, hv3, _⟩ :=
      (hSg (Signed.MAX bits N) 1 hminle (le_refl _) h1lo h1hi).1
    have hminmod : (Signed.MAX bits N + 1) % (2 : Int) ^ bits
        = Signed.MIN bits N % (2 : Int) ^ bits := by
      rw [hMs, hmins, show ((2 : Int) ^ (bits - 1) - 1) + 1 = 2 ^ (bits - 1) by ring]
      conv_lhs => rw [show (2 : Int) ^ (bits - 1)
        = -((2 : Int) ^ (bits - 1)) + 2 ^ bits * 1 by rw [hbsplit]; ring]
      rw [Int.add_mul_emod_self_left]
    have hv2a : -((2 : Int) ^ (bits - 1))
        ≤ toInt N (Signed.wrapping_add bits N (ofInt N (Signed.MAX bits N))
            (ofInt N 1)) := hmins ▸ hv2
    have hv3a : toInt N (Signed.wrapping_add bits N (ofInt N (Signed.MAX bits N))
        (ofInt N 1)) < 2 ^ (bits - 1) :=
      lt_of_le_of_lt (hv3.trans_eq hMs) (by omega)
    exact signed_unique hb1 (hv1.trans hminmod) hv2a hv3a
      (le_of_eq hmins.symm |>.trans (le_refl _)) (by rw [hmins]; omega)
  exact ⟨hUn, hSg, hwrapU, hwrapS⟩

end UX

namespace UX

/-- Witness for C1 at width 5 over the 8-bit backing type:
`u5::MAX.wrapping_add(1) == u5::MIN`. -/
theorem claimC1_witness :
    Unsigned.wrapping_add 5 8 (Unsigned.MAX 5 8) 1 = Unsigned.MIN 5 8 :=
  (claimC1 5 8 (by decide)).2.2.1

/-- Claim C7. Two values of the same type are equal exactly when their
canonicalized native values are equal (also for different raw bit patterns
of the same canonical value); ordering and hashing are computed on the
canonicalized representation; the ordering is total, consistent with
equality (reflexive, antisymmetric, transitive), and equal values hash
identically. -/
theorem claimC7 (bits N : Nat) (h : (bits, N) ∈ supportedWidths) :
    (∀ p q : Nat, Unsigned.eq bits N p q = true
        ↔ Unsigned.mask bits N p = Unsigned.mask bits N q)
    ∧ (∀ p q : Nat, p < 2 ^ N → q < 2 ^ N →
        (Signed.eq bits N p q = true
          ↔ Signed.mask bits N p = Signed.mask bits N q))
    ∧ (∀ p, Unsigned.eq bits N p p = true)
    ∧ (∀ p, Signed.eq bits N p p = true)
    ∧ (∀ p q, Unsigned.cmp bits N p q = Ordering.eq ↔ Unsigned.eq bits N p q = true)
    ∧ (∀ p q, Signed.cmp bits N p q = Ordering.eq ↔ Signed.eq bits N p q = true)
    ∧ (∀ p q, Unsigned.cmp bits N p q = Ordering.lt
        → Unsigned.cmp bits N q p = Ordering.gt)
    ∧ (∀ p q, Signed.cmp bits N p q = Ordering.lt
        → Signed.cmp bits N q p = Ordering.gt)
    ∧ (∀ p q r, Unsigned.cmp bits N p q = Ordering.lt
        → Unsigned.cmp bits N q r = Ordering.lt
        → Unsigned.cmp bits N p r = Ordering.lt)
    ∧ (∀ p q r, Signed.cmp bits N p q = Ordering.lt
        → Signed.cmp bits N q r = Ordering.lt
        → Signed.cmp bits N p r = Ordering.lt)
    ∧ (∀ p q, Unsigned.cmp bits N p q = Ordering.lt
        ∨ Unsigned.cmp bits N p q = Ordering.eq
        ∨ Unsigned.cmp bits N p q = Ordering.gt)
    ∧ (∀ p q, Unsigned.eq bits N p q = true
        → Unsigned.hash bits N p = Unsigned.hash bits N q)
    ∧ (∀ p q, p < 2 ^ N → q < 2 ^ N → Signed.eq bits N p q = true
        → Signed.hash bits N p = Signed.hash bits N q) := by
  obtain ⟨hb2, hbN, _⟩ := supported_bounds h
  have hb1 : 0 < bits := by omega
  have hN : 0 < N := by omega
  have hseq : ∀ p q : Nat, p < 2 ^ N → q < 2 ^ N →
      (Signed.eq bits N p q = true
        ↔ Signed.mask bits N p = Signed.mask bits N q) := by
    intro p q hp hq
    rw [Signed.eq, decide_eq_true_eq]
    constructor
    · intro hv
      exact toInt_inj hN (Signed.mask_lt_two_pow hb1 hbN hp) (Signed.mask_lt_two_pow hb1 hbN hq) hv
    · intro hm
      rw [hm]
  refine ⟨?_, hseq, ?_, ?_, ?_, ?_, ?_, ?_, ?_, ?_, ?_, ?_, ?_⟩
  · intro p q
    rw [Unsigned.eq, decide_eq_true_eq]
  · intro p
    rw [Unsigned.eq, decide_eq_true_eq]
  · intro p
    rw [Signed.eq, decide_eq_true_eq]
  · intro p q
    rw [Unsigned.cmp, ncmp_eq_iff, Unsigned.eq, decide_eq_true_eq]
  · intro p q
    rw [Signed.cmp, icmp_eq_iff, Signed.eq, decide_eq_true_eq]
  · intro p q hlt
    rw [Unsigned.cmp, ncmp_lt_iff] at hlt
    rw [Unsigned.cmp, ncmp_gt_iff]
    exact hlt
  · intro p q hlt
    rw [Signed.cmp, icmp_lt_iff] at hlt
    rw [Signed.cmp, icmp_gt_iff]
    exact hlt
  · intro p q r h1 h2
    rw [Unsigned.cmp, ncmp_lt_iff] at h1 h2 ⊢
    omega
  · intro p q r h1 h2
    rw [Signed.cmp, icmp_lt_iff] at h1 h2 ⊢
    omega
  · intro p q
    rw [Unsigned.cmp, ncmp]
    split_ifs <;> simp
  · intro p q hpq
    rw [Unsigned.eq, decide_eq_true_eq] at hpq
    rw [Unsigned.hash, Unsigned.hash, hpq]
  · intro p q hp hq hpq
    rw [hseq p q hp hq] at hpq
    rw [Signed.hash, Signed.hash, hpq]

/-- Witness for C7 at width 5 over the 8-bit backing type: the raw
left-shift result `16 << 1` (stored pattern 32) compares equal to the
stored pattern 0, because equality canonicalizes both sides. -/
theorem claimC7_witness :
    Unsigned.eq 5 8 (Unsigned.shl 5 8 16 1) 0 = true :=
  ((claimC7 5 8 (by decide)).1 (Unsigned.shl 5 8 16 1) 0).mpr (by decide)

end UX

namespace UX

/-- Claim C8. The four operand-ownership variants of bitwise OR produce
identical results; each variant masks both operands before combining, and
the result of OR-ing is itself in canonical form even though no final mask
is applied (for signed types the padding of the result equals its own sign
bit, i.e. the stored result is a fixed point of `mask`); concretely
width-9 unsigned `1 | 8 = 9` under all four operand forms. -/
theorem claimC8 (bits N : Nat) (h : (bits, N) ∈ supportedWidths) :
    (∀ p q : Nat, Unsigned.bitor bits N p q = Unsigned.bitor_vr bits N p q
      ∧ Unsigned.bitor bits N p q = Unsigned.bitor_rv bits N p q
      ∧ Unsigned.bitor bits N p q = Unsigned.bitor_rr bits N p q)
    ∧ (∀ p q : Nat, Signed.bitor bits N p q = Signed.bitor_vr bits N p q
      ∧ Signed.bitor bits N p q = Signed.bitor_rv bits N p q
      ∧ Signed.bitor bits N p q = Signed.bitor_rr bits N p q)
    ∧ (∀ p q : Nat, Unsigned.canonical bits N (Unsigned.bitor bits N p q))
    ∧ (∀ p q : Nat, p < 2 ^ N → q < 2 ^ N →
        Signed.canonical bits N (Signed.bitor bits N p q))
    ∧ Unsigned.bitor 9 16 1 8 = 9 ∧ Unsigned.bitor_vr 9 16 1 8 = 9
    ∧ Unsigned.bitor_rv 9 16 1 8 = 9 ∧ Unsigned.bitor_rr 9 16 1 8 = 9 := by
  obtain ⟨hb2, hbN, _⟩ := supported_bounds h
  have hb1 : 0 < bits := by omega
  refine ⟨fun p q => ⟨rfl, rfl, rfl⟩, fun p q => ⟨rfl, rfl, rfl⟩, ?_, ?_,
    by decide, by decide, by decide, by decide⟩
  · intro p q
    rw [Unsigned.canonical_iff hbN, Unsigned.bitor]
    exact Nat.or_lt_two_pow (Unsigned.mask_lt hbN p) (Unsigned.mask_lt hbN q)
  · intro p q hp hq
    exact Signed.mask_lor_canonical hb1 hbN hp hq

/-- Witness for C8 at width 9 over the 16-bit backing type: the OR result
`1 | 8` is canonical. -/
theorem claimC8_witness :
    Unsigned.canonical 9 16 (Unsigned.bitor 9 16 1 8) :=
  (claimC8 9 16 (by decide)).2.2.1 1 8

/-- Claim C3, counterexample. The claim says every operator, including every
shift, returns a canonical stored value.  The left-shift operator does not:
at width 5 (8-bit backing) the direct result of `16 << 1` stores the raw
pattern 32, which is not a fixed point of `mask` (its canonical form is 0). -/
theorem claimC3_counterexample :
    ¬ Unsigned.canonical 5 8 (Unsigned.shl 5 8 16 1) := by decide

/-- Claim C3, amended. Every operation that produces a new value — `new`,
`wrapping_add`, `wrapping_sub`, right shift, and all bitwise OR forms —
returns a stored value in canonical form; left shift is the one exception
(its stored result may be non-canonical, see the counterexample). -/
theorem claimC3 (bits N : Nat) (h : (bits, N) ∈ supportedWidths) :
    (∀ v w : Nat, Unsigned.new bits N v = some w → Unsigned.canonical bits N w)
    ∧ (∀ x w : Int, Signed.new bits N x = some w →
        Signed.canonical bits N (ofInt N w))
    ∧ (∀ p q : Nat, Unsigned.canonical bits N (Unsigned.wrapping_add bits N p q)
        ∧ Unsigned.canonical bits N (Unsigned.wrapping_sub bits N p q))
    ∧ (∀ p q : Nat, p < 2 ^ N → q < 2 ^ N →
        Signed.canonical bits N (Signed.wrapping_add bits N p q)
        ∧ Signed.canonical bits N (Signed.wrapping_sub bits N p q))
    ∧ (∀ p k : Nat, Unsigned.canonical bits N (Unsigned.shr bits N p k))
    ∧ (∀ p k : Nat, p < 2 ^ N → Signed.canonical bits N (Signed.shr bits N p k))
    ∧ (∀ p q : Nat, Unsigned.canonical bits N (Unsigned.bitor bits N p q))
    ∧ (∀ p q : Nat, p < 2 ^ N → q < 2 ^ N →
        Signed.canonical bits N (Signed.bitor bits N p q)) := by
  obtain ⟨hb2, hbN, _⟩ := supported_bounds h
  have hb1 : 0 < bits := by omega
  have hN : 0 < N := by omega
  have hpowb : (2 : Int) ^ (bits - 1) ≤ 2 ^ (N - 1) :=
    pow_le_pow_right₀ (by norm_num) (by omega)
  refine ⟨?_, ?_, ?_, ?_, ?_, ?_, ?_, ?_⟩
  · intro v w hvw
    rw [Unsigned.new] at hvw
    split_ifs at hvw with hcond
    cases hvw
    rw [Unsigned.canonical_iff hbN]
    have := Unsigned.MAX_eq hbN
    have := Nat.two_pow_pos bits
    omega
  · intro x w hvw
    rw [Signed.new] at hvw
    split_ifs at hvw with hcond
    cases hvw
    obtain ⟨hc1, hc2⟩ := hcond
    rw [Signed.MAX_value hb1 hbN] at hc1
    rw [Signed.MIN_eq hb1 hbN] at hc2
    have hx1 : -((2 : Int) ^ (N - 1)) ≤ x := by omega
    have hx2 : x < 2 ^ (N - 1) := by omega
    rw [Signed.canonical_iff_range hb1 hbN (ofInt_spec N x).2, toInt_ofInt hN hx1 hx2]
    constructor <;> omega
  · intro p q
    constructor
    · exact Unsigned.mask_idem bits N (wadd N p q)
    · exact Unsigned.mask_idem bits N (wsub N p q)
  · intro p q hp hq
    constructor
    · exact Signed.mask_idempotent hb1 hbN (Nat.mod_lt _ (Nat.two_pow_pos N))
    · exact Signed.mask_idempotent hb1 hbN (Nat.mod_lt _ (Nat.two_pow_pos N))
  · intro p k
    rw [Unsigned.canonical_iff hbN, Unsigned.shr, Nat.shiftRight_eq_div_pow]
    exact lt_of_le_of_lt (Nat.div_le_self _ _) (Unsigned.mask_lt hbN p)
  · intro p k hp
    obtain ⟨_, tm2, tm3⟩ := Signed.toInt_mask hb1 hbN hp
    have hdpos : (0 : Int) < 2 ^ k := by positivity
    have hrange := ediv_sign_range (toInt N (Signed.mask bits N p)) (2 ^ k) hdpos
    have hb1pos : (0 : Int) < 2 ^ (bits - 1) := by positivity
    have hlo : -((2 : Int) ^ (N - 1)) ≤ toInt N (Signed.mask bits N p) / 2 ^ k := by
      rcases le_or_lt 0 (toInt N (Signed.mask bits N p)) with hs | hs
      · have := (hrange.1 hs).1
        omega
      · have := (hrange.2 (le_of_lt hs)).1
        omega
    have hhi : toInt N (Signed.mask bits N p) / 2 ^ k < 2 ^ (N - 1) := by
      rcases le_or_lt 0 (toInt N (Signed.mask bits N p)) with hs | hs
      · have := (hrange.1 hs).2
        omega
      · have := (hrange.2 (le_of_lt hs)).2
        omega
    rw [Signed.shr, Signed.canonical_iff_range hb1 hbN (ofInt_spec N _).2,
      toInt_ofInt hN hlo hhi]
    constructor
    · rcases le_or_lt 0 (toInt N (Signed.mask bits N p)) with hs | hs
      · have := (hrange.1 hs).1
        omega
      · have := (hrange.2 (le_of_lt hs)).1
        omega
    · rcases le_or_lt 0 (toInt N (Signed.mask bits N p)) with hs | hs
      · have := (hrange.1 hs).2
        omega
      · have := (hrange.2 (le_of_lt hs)).2
        omega
  · intro p q
    rw [Unsigned.canonical_iff hbN, Unsigned.bitor]
    exact Nat.or_lt_two_pow (Unsigned.mask_lt hbN p) (Unsigned.mask_lt hbN q)
  · intro p q hp hq
    exact Signed.mask_lor_canonical hb1 hbN hp hq

/-- Witness for C3 (amended) at width 5 over the 8-bit backing type: the
wrapping sum of two raw patterns is canonical. -/
theorem claimC3_witness :
    Unsigned.canonical 5 8 (Unsigned.wrapping_add 5 8 200 100) :=
  ((claimC3 5 8 (by decide)).2.2.1 200 100).1

end UX

namespace UX

/-- Claim C4, counterexample. The claim says hexadecimal (and octal/binary)
rendering applies the native renderer to the *canonical* value.  In the
code every formatting impl renders the *stored* value: at width 5 (8-bit
backing) the left-shift result `16 << 1` stores the pattern 32, and its
hex rendering is the digit sequence of 32 (`"20"`), not the digit sequence
of its canonical value 0 (`"0"`). -/
theorem claimC4_counterexample :
    Unsigned.fmtUpperHex (Unsigned.shl 5 8 16 1)
      ≠ digitsLE 16 (Unsigned.mask 5 8 (Unsigned.shl 5 8 16 1)) := by decide

/-- Claim C4, amended. Decimal, hexadecimal (upper and lower), octal and
binary rendering all apply the backing native type's renderer to the
STORED value; consequently, whenever the stored value is canonical the
positional-base output matches exactly the digit sequence the native
renderer would produce for the canonical value (no digits leaked from
padding bits), but a non-canonical stored value (e.g. a left-shift result)
renders its raw stored bits. -/
theorem claimC4 (bits N : Nat) (_h : (bits, N) ∈ supportedWidths) :
    (∀ p : Nat, Unsigned.canonical bits N p →
        Unsigned.fmtUpperHex p = digitsLE 16 (Unsigned.mask bits N p)
        ∧ Unsigned.fmtLowerHex p = digitsLE 16 (Unsigned.mask bits N p)
        ∧ Unsigned.fmtOctal p = digitsLE 8 (Unsigned.mask bits N p)
        ∧ Unsigned.fmtBinary p = digitsLE 2 (Unsigned.mask bits N p)
        ∧ Unsigned.fmtDisplay p = digitsLE 10 p)
    ∧ (∀ p : Nat, Signed.canonical bits N p →
        Signed.fmtUpperHex p = digitsLE 16 (Signed.mask bits N p)
        ∧ Signed.fmtLowerHex p = digitsLE 16 (Signed.mask bits N p)
        ∧ Signed.fmtOctal p = digitsLE 8 (Signed.mask bits N p)
        ∧ Signed.fmtBinary p = digitsLE 2 (Signed.mask bits N p)
        ∧ Signed.fmtDisplay N p
            = (decide (toInt N p < 0), digitsLE 10 (toInt N p).natAbs)) := by
  constructor
  · intro p hc
    rw [Unsigned.canonical] at hc
    rw [hc]
    exact ⟨rfl, rfl, rfl, rfl, rfl⟩
  · intro p hc
    rw [Signed.canonical] at hc
    rw [hc]
    exact ⟨rfl, rfl, rfl, rfl, rfl⟩

/-- Witness for C4 (amended) at width 5 over the 8-bit backing type: the
canonical stored pattern 6 hex-renders as the canonical value's digits. -/
theorem claimC4_witness :
    Unsigned.fmtUpperHex 6 = digitsLE 16 (Unsigned.mask 5 8 6) :=
  ((claimC4 5 8 (by decide)).1 6 (by decide)).1

end UX

namespace UX

/-- Claim C6. For every canonical value and every shift amount below the
backing width: right shift equals the native shift of the canonical
representation (logical for unsigned, sign-propagating arithmetic for
signed, e.g. width-7 signed `-1 >> 5 = -1`); left shift, when subsequently
observed through the canonicalizing mask (as comparison and formatting
do), equals the width-`B` modular left shift (e.g. width-5 signed
`16 << 1 == 0`, width-7 signed `1 << 3 == 8`), even though the left-shift
operator itself does not re-canonicalize its stored result. -/
theorem claimC6 (bits N : Nat) (h : (bits, N) ∈ supportedWidths) :
    (∀ p k : Nat, Unsigned.canonical bits N p →
        Unsigned.shr bits N p k = p >>> k)
    ∧ (∀ p k : Nat, p < 2 ^ N → Signed.canonical bits N p →
        toInt N (Signed.shr bits N p k) = toInt N p / 2 ^ k)
    ∧ (∀ p k : Nat, k < N → Unsigned.canonical bits N p →
        Unsigned.mask bits N (Unsigned.shl bits N p k) = p * 2 ^ k % 2 ^ bits)
    ∧ (∀ p k : Nat, k < N → p < 2 ^ N → Signed.canonical bits N p →
        toInt N (Signed.mask bits N (Signed.shl bits N p k)) % (2 : Int) ^ bits
          = toInt N p * 2 ^ k % 2 ^ bits
        ∧ -((2 : Int) ^ (bits - 1))
            ≤ toInt N (Signed.mask bits N (Signed.shl bits N p k))
        ∧ toInt N (Signed.mask bits N (Signed.shl bits N p k)) < 2 ^ (bits - 1))
    ∧ Unsigned.shr 5 8 8 1 = 4
    ∧ toInt 8 (Signed.shr 7 8 (ofInt 8 (-1)) 5) = -1
    ∧ Signed.eq 5 8 (Signed.shl 5 8 16 1) (ofInt 8 0) = true
    ∧ Signed.eq 7 8 (Signed.shl 7 8 1 3) (ofInt 8 8) = true := by
  obtain ⟨hb2, hbN, _⟩ := supported_bounds h
  have hb1 : 0 < bits := by omega
  have hN : 0 < N := by omega
  have hdvd : (2 : Nat) ^ bits ∣ 2 ^ N := pow_dvd_pow 2 (le_of_lt hbN)
  have hdvdI : (2 : Int) ^ bits ∣ 2 ^ N := pow_dvd_pow 2 (le_of_lt hbN)
  have hpowb : (2 : Int) ^ (bits - 1) ≤ 2 ^ (N - 1) :=
    pow_le_pow_right₀ (by norm_num) (by omega)
  refine ⟨?_, ?_, ?_, ?_, by decide, by decide, by decide, by decide⟩
  · intro p k hc
    rw [Unsigned.canonical] at hc
    rw [Unsigned.shr, hc]
  · intro p k hp hc
    have hcm : Signed.mask bits N p = p := hc
    obtain ⟨hlo, hhi⟩ := (Signed.canonical_iff_range hb1 hbN hp).mp hc
    have hdpos : (0 : Int) < 2 ^ k := by positivity
    have hrange := ediv_sign_range (toInt N p) (2 ^ k) hdpos
    have hb1pos : (0 : Int) < 2 ^ (bits - 1) := by positivity
    have hqlo : -((2 : Int) ^ (N - 1)) ≤ toInt N p / 2 ^ k := by
      rcases le_or_lt 0 (toInt N p) with hs | hs
      · have := (hrange.1 hs).1
        omega
      · have := (hrange.2 (le_of_lt hs)).1
        omega
    have hqhi : toInt N p / 2 ^ k < 2 ^ (N - 1) := by
      rcases le_or_lt 0 (toInt N p) with hs | hs
      · have := (hrange.1 hs).2
        omega
      · have := (hrange.2 (le_of_lt hs)).2
        omega
    rw [Signed.shr, hcm, toInt_ofInt hN hqlo hqhi]
  · intro p k hk hc
    have hcm : Unsigned.mask bits N p = p := hc
    rw [Unsigned.shl, hcm, wshl, Unsigned.mask_eq hbN, Nat.mod_mod_of_dvd _ hdvd,
      Nat.shiftLeft_eq]
  · intro p k hk hp hc
    have hcm : Signed.mask bits N p = p := hc
    have hw : wshl N p k < 2 ^ N := Nat.mod_lt _ (Nat.two_pow_pos N)
    rw [Signed.shl, hcm]
    obtain ⟨tm1, tm2, tm3⟩ := Signed.toInt_mask hb1 hbN hw
    refine ⟨?_, tm2, tm3⟩
    have hmm : (2 : Int) ^ bits * ((2 : Int) ^ (N - bits) * 2 ^ k)
        = 2 ^ N * 2 ^ k := by
      rw [← mul_assoc, ← pow_add, show bits + (N - bits) = N by omega]
    rw [tm1, wshl, Int.natCast_mod, two_pow_cast, Int.emod_emod_of_dvd _ hdvdI,
      Nat.shiftLeft_eq, Nat.cast_mul, two_pow_cast, toInt]
    split
    next hsm =>
      rfl
    next hsm =>
      rw [show ((p : Int) - 2 ^ N) * 2 ^ k
          = (p : Int) * 2 ^ k + 2 ^ bits * -((2 : Int) ^ (N - bits) * 2 ^ k) by
        rw [mul_neg, hmm]
        ring]
      rw [Int.add_mul_emod_self_left]

end UX

namespace UX

/-- Witness for C6 at width 5 over the 8-bit backing type: the canonical
value 8 right-shifted by 1 is the native right shift `8 >>> 1 = 4`. -/
theorem claimC6_witness :
    Unsigned.shr 5 8 8 1 = 8 >>> 1 :=
  (claimC6 5 8 (by decide)).1 8 1 (by decide)

/-- Claim C10. For every raw stored bit pattern, `mask`, `wrapping_add`,
`wrapping_sub`, equality, ordering and hashing are total and never panic:
under the debug-mode semantics (where a native shift by an amount at or
above the backing width and an overflowing checked subtraction would
panic), `mask` succeeds for every supported width — its bit masks are
built with the native shift (whose amount `bits`, resp. `bits - 1`, is
below the backing width) and `overflowing_sub` (which never panics, even
at width 63 on the 64-bit backing type) — and the arithmetic operators use
the native wrapping primitives.  The only failure points of the whole
surface are `new`'s range assertion and a native shift by an amount at or
above the backing width. -/
theorem claimC10 (bits N : Nat) (h : (bits, N) ∈ supportedWidths) :
    (∀ p : Nat, Unsigned.maskChecked bits N p = some (Unsigned.mask bits N p))
    ∧ (∀ p : Nat, Signed.maskChecked bits N p = some (Signed.mask bits N p))
    ∧ (∀ p q : Nat, Unsigned.wrapping_addChecked bits N p q
        = some (Unsigned.wrapping_add bits N p q))
    ∧ (∀ p q : Nat, Unsigned.wrapping_subChecked bits N p q
        = some (Unsigned.wrapping_sub bits N p q))
    ∧ (∀ p q : Nat, Signed.wrapping_addChecked bits N p q
        = some (Signed.wrapping_add bits N p q))
    ∧ (∀ p q : Nat, Signed.wrapping_subChecked bits N p q
        = some (Signed.wrapping_sub bits N p q))
    ∧ (∀ p k : Nat, N ≤ k → checkedShl N p k = none)
    ∧ (∀ v : Nat, ¬ (v ≤ Unsigned.MAX bits N ∧ Unsigned.MIN bits N ≤ v) →
        Unsigned.new bits N v = none) := by
  obtain ⟨hb2, hbN, _⟩ := supported_bounds h
  have h1m : (1 : Nat) % 2 ^ N = 1 :=
    Nat.mod_eq_of_lt (Nat.one_lt_two_pow_iff.mpr (by omega))
  have hmU : ∀ p : Nat, Unsigned.maskChecked bits N p
      = some (Unsigned.mask bits N p) := by
    intro p
    rw [Unsigned.maskChecked, checkedShl, if_pos hbN, Option.map_some',
      overflowing_sub, wshl, Unsigned.mask, h1m]
  have hmS : ∀ p : Nat, Signed.maskChecked bits N p
      = some (Signed.mask bits N p) := by
    intro p
    rw [Signed.maskChecked, checkedShl, checkedShl,
      if_pos (show bits - 1 < N by omega), Option.some_bind, if_pos hbN,
      Option.map_some', overflowing_sub, wshl, wshl, Signed.mask, h1m]
  refine ⟨hmU, hmS, ?_, ?_, ?_, ?_, ?_, ?_⟩
  · intro p q
    rw [Unsigned.wrapping_addChecked, hmU, Unsigned.wrapping_add]
  · intro p q
    rw [Unsigned.wrapping_subChecked, hmU, Unsigned.wrapping_sub]
  · intro p q
    rw [Signed.wrapping_addChecked, hmS, Signed.wrapping_add]
  · intro p q
    rw [Signed.wrapping_subChecked, hmS, Signed.wrapping_sub]
  · intro p k hk
    rw [checkedShl, if_neg (by omega)]
  · intro v hv
    rw [Unsigned.new, if_neg hv]

/-- Witness for C10 at the extreme width 63 over the 64-bit backing type:
the debug-mode mask of the all-ones pattern succeeds (no panic). -/
theorem claimC10_witness :
    Signed.maskChecked 63 64 (2 ^ 64 - 1) = some (Signed.mask 63 64 (2 ^ 64 - 1)) :=
  (claimC10 63 64 (by decide)).2.1 (2 ^ 64 - 1)

end UX
